import Mathlib

set_option maxHeartbeats 1000000

/-!
Verification of the approval-gated execution core of the Ailys repository
(`src/core/approval_queue.py`), a queue that intercepts callables and requires
an operator decision (or an auto/dryrun policy) before executing them.

Modelling choices (shallow embedding of the Python module):

* `ApprovalRequest.approved : Option Bool` mirrors the Python tri-state field
  (`None` = undecided, `True` = approved, `False` = denied).
* A submitted callable is modelled as `Option Val → Except Err Val`.  The
  callables submitted in this repository either take no arguments or take one
  optional `overrides` parameter defaulting to `None` (`_do_call(overrides=None)`
  in `core/artificial_cognition.py`); the queue invokes `call_fn()` with no
  arguments, which corresponds to applying the function to `none`.  A raising
  callable is an `Except.error`.
* `exec_count` is a ghost field (not in the source) counting how many times the
  queue has invoked `call_fn` on this request; every invocation site of
  `_execute_request` increments it and nothing else touches it.
* Python mutates a shared `ApprovalRequest` object that is referenced both from
  `self._requests` and `self._queue`.  Here the FIFO `queue` stores request ids
  and mutation is modelled by replacing the entry with that id in `requests`
  (`set_req`); ids are unique in every reachable state.
* The threading condition variable has no sequential content and is omitted;
  `notify()` calls are no-ops in the sequential model.  A manual-mode submission
  that reaches the blocking wait is represented by `SubmitStep.blocked`: the
  queue state after the enqueue, with the submitter parked on the request id.
  The "finite timeout elapsed with no decision" completion of that wait is the
  function `wake_result` applied to the unchanged state (the wait loop exits
  with `approved` still `None`, and `request_approval` then returns `None`).
-/

/-- Payload type of callable results (stands in for Python `Any`). -/
abbrev Val := Int

/-- Captured exception payload (stands in for the Python exception object). -/
abbrev Err := String

/-- A gated callable: applying it to `none` is the source's `call_fn()` call;
`some o` is what an overrides-passing approver would hand through. -/
abbrev Callable := Option Val → Except Err Val

/-- Structure `ApprovalRequest` from `src/core/approval_queue.py` (dataclass).  The
`condition` field (a `threading.Condition`) is omitted; `exec_count` is the
ghost invocation counter described in the module docstring above. -/
structure ApprovalRequest where
  id : Nat
  description : String
  call_fn : Callable
  approved : Option Bool := none
  result : Option Val := none
  error : Option Err := none
  exec_count : Nat := 0

/-- State of `ApprovalQueue`: `mode`, the FIFO `self._queue` (as request ids),
the full history `self._requests`, `self._next_id`, `self._auto_approve_count`. -/
structure ApprovalQueue where
  mode : String
  queue : List Nat
  requests : List ApprovalRequest
  next_id : Nat
  auto_approve_count : Nat

/-- A fresh queue (`ApprovalQueue.__init__` with the given, already-normalised
mode string): empty history, empty FIFO, `_next_id = 1`, no standing grant. -/
def ApprovalQueue.init (mode : String) : ApprovalQueue :=
  { mode := mode, queue := [], requests := [], next_id := 1, auto_approve_count := 0 }

/-- In-place mutation of the request object with id `r.id`: every history entry
carrying that id is replaced by `r` (in reachable states there is exactly one). -/
def set_req (l : List ApprovalRequest) (r : ApprovalRequest) : List ApprovalRequest :=
  l.map (fun x => if x.id = r.id then r else x)

/-- Queue-level view of `set_req`. -/
def set_request (q : ApprovalQueue) (r : ApprovalRequest) : ApprovalQueue :=
  { q with requests := set_req q.requests r }

/-- First entry of a request list with the given id (`next((r for r in rs if
r.id == request_id), None)`). -/
def findReq : List ApprovalRequest → Nat → Option ApprovalRequest
  | [], _ => none
  | r :: t, i => if r.id = i then some r else findReq t i

/-- Method `ApprovalQueue._find_request`: first history entry with the given id. -/
def find_request (q : ApprovalQueue) (request_id : Nat) : Option ApprovalRequest :=
  findReq q.requests request_id

/-- Method `ApprovalQueue._execute_request` acting on one request object: runs
`call_fn()`; on success stores the result and sets `approved = True`; on a
raise stores the exception and sets `approved = False`.  Returns the updated
request together with the method's return value `request.result`. -/
def execute_request (r : ApprovalRequest) : ApprovalRequest × Option Val :=
  match r.call_fn none with
  | Except.ok v =>
      ({ r with result := some v, approved := some true,
                exec_count := r.exec_count + 1 }, some v)
  | Except.error e =>
      ({ r with error := some e, approved := some false,
                exec_count := r.exec_count + 1 }, r.result)

/-- Method `ApprovalQueue._enqueue`: build a request with the next id, append it to the
history and the FIFO, and bump `_next_id`. -/
def enqueue (q : ApprovalQueue) (description : String) (call_fn : Callable) :
    ApprovalRequest × ApprovalQueue :=
  let r : ApprovalRequest := { id := q.next_id, description := description, call_fn := call_fn }
  (r, { q with requests := q.requests ++ [r], queue := q.queue ++ [r.id],
               next_id := q.next_id + 1 })

/-- Method `ApprovalQueue.get_pending_requests`: history entries with `approved is None`,
in submission order. -/
def get_pending_requests (q : ApprovalQueue) : List ApprovalRequest :=
  q.requests.filter (fun r => r.approved.isNone)

/-- Method `ApprovalQueue.approve_request`: look the id up; if found and still
undecided, execute it (and notify the waiter) and return the execution result;
otherwise return `None` and change nothing. -/
def approve_request (q : ApprovalQueue) (request_id : Nat) : Option Val × ApprovalQueue :=
  match find_request q request_id with
  | some r =>
      if r.approved = none then
        let e := execute_request r
        (e.2, set_request q e.1)
      else (none, q)
  | none => (none, q)

/-- Method `ApprovalQueue.deny_request`: if the id exists and is undecided, set
`approved = False` (no execution) and return `True`; otherwise return `False`. -/
def deny_request (q : ApprovalQueue) (request_id : Nat) : Bool × ApprovalQueue :=
  match find_request q request_id with
  | some r =>
      if r.approved = none then
        (true, set_request q { r with approved := some false })
      else (false, q)
  | none => (false, q)

/-- One iteration of the `approve_batch` drain loop body: pop gave us `rid`;
if that request is still undecided, execute it (the `notify` is a no-op). -/
def drainStep (reqs : List ApprovalRequest) (rid : Nat) : List ApprovalRequest :=
  match findReq reqs rid with
  | some r => if r.approved = none then set_req reqs (execute_request r).1 else reqs
  | none => reqs

/-- The `approve_batch` drain loop: `while not self._queue.empty() and count > 0`,
popping the FIFO front and decrementing the local `count` each iteration
(whether or not the popped request was still undecided). -/
def drainLoop (fifo : List Nat) (count : Int) (reqs : List ApprovalRequest) :
    List Nat × List ApprovalRequest :=
  if count ≤ 0 then (fifo, reqs)
  else
    match fifo with
    | [] => ([], reqs)
    | rid :: rest => drainLoop rest (count - 1) (drainStep reqs rid)

/-- Method `ApprovalQueue.approve_batch`: store `max(0, int(count))` as the standing
auto-approve grant, then drain up to `count` FIFO entries with the *local*
`count` variable (the stored grant is not consumed by the drain). -/
def approve_batch (q : ApprovalQueue) (count : Int) : ApprovalQueue :=
  let q1 := { q with auto_approve_count := count.toNat }
  let d := drainLoop q1.queue count q1.requests
  { q1 with queue := d.1, requests := d.2 }

/-- Method `ApprovalQueue.approve_all_pending`: `approve_batch(len(get_pending_requests()))`. -/
def approve_all_pending (q : ApprovalQueue) : ApprovalQueue :=
  approve_batch q (Int.ofNat (get_pending_requests q).length)

/-- Outcome of `request_approval` as seen sequentially: either the call
returned immediately (`done` with its return value and the new state), or the
submitter is parked on the request's condition variable (`blocked` with the
request id and the state after the enqueue). -/
inductive SubmitStep where
  | done (res : Option Val) (q : ApprovalQueue)
  | blocked (rid : Nat) (q : ApprovalQueue)

/-- State component of a `SubmitStep`. -/
def SubmitStep.state : SubmitStep → ApprovalQueue
  | SubmitStep.done _ q => q
  | SubmitStep.blocked _ q => q

/-- Immediate return value of a `SubmitStep` (`none` while still blocked). -/
def SubmitStep.retval : SubmitStep → Option Val
  | SubmitStep.done r _ => r
  | SubmitStep.blocked _ _ => none

/-- Method `ApprovalQueue.request_approval`.  `auto`: execute at once, swallowing any
raise into `None`, with no record kept.  `dryrun`: enqueue, then force
`approved = False` without executing, return `None`.  Any other mode takes the
manual path: enqueue; if the standing grant is positive, decrement it and
execute immediately; otherwise block on the request's condition variable. -/
def request_approval (q : ApprovalQueue) (description : String) (call_fn : Callable) :
    SubmitStep :=
  if q.mode = "auto" then
    match call_fn none with
    | Except.ok v => SubmitStep.done (some v) q
    | Except.error _ => SubmitStep.done none q
  else if q.mode = "dryrun" then
    let p := enqueue q description call_fn
    SubmitStep.done none (set_request p.2 { p.1 with approved := some false })
  else
    let p := enqueue q description call_fn
    if 0 < p.2.auto_approve_count then
      let q2 := { p.2 with auto_approve_count := p.2.auto_approve_count - 1 }
      let e := execute_request p.1
      SubmitStep.done e.2 (set_request q2 e.1)
    else
      SubmitStep.blocked p.1.id p.2

/-- What a parked manual submitter returns when its wait loop exits in state
`q` (decision arrived, or the finite timeout elapsed): `if req.approved:
return req.result` else `None`.  With `approved` still `None` (timeout with no
decision) this is `None`. -/
def wake_result (q : ApprovalQueue) (rid : Nat) : Option Val :=
  match find_request q rid with
  | some r => if r.approved = some true then r.result else none
  | none => none

/-- Decision field of the request with the given id, when it exists. -/
def reqDecision (q : ApprovalQueue) (rid : Nat) : Option (Option Bool) :=
  (find_request q rid).map (fun r => r.approved)

/-- Error field of the request with the given id, when it exists. -/
def reqError (q : ApprovalQueue) (rid : Nat) : Option (Option Err) :=
  (find_request q rid).map (fun r => r.error)

/-- Result field of the request with the given id, when it exists. -/
def reqResult (q : ApprovalQueue) (rid : Nat) : Option (Option Val) :=
  (find_request q rid).map (fun r => r.result)

/-- Ghost invocation count of the request with the given id, when it exists. -/
def reqExec (q : ApprovalQueue) (rid : Nat) : Option Nat :=
  (find_request q rid).map (fun r => r.exec_count)

/-- The public operations a sequential history can interleave (the submitter of
a blocked manual request stays parked; later operations come from other
threads, e.g. the GUI). -/
inductive Op where
  | submit (description : String) (call_fn : Callable)
  | approve (request_id : Nat)
  | deny (request_id : Nat)
  | batch (count : Int)
  | approveAll

/-- Apply one public operation to the queue state. -/
def applyOp (q : ApprovalQueue) : Op → ApprovalQueue
  | Op.submit d c => (request_approval q d c).state
  | Op.approve rid => (approve_request q rid).2
  | Op.deny rid => (deny_request q rid).2
  | Op.batch n => approve_batch q n
  | Op.approveAll => approve_all_pending q

/-- Run a history of operations from a fresh queue in the given mode. -/
def runOps (mode : String) (ops : List Op) : ApprovalQueue :=
  ops.foldl applyOp (ApprovalQueue.init mode)

/-- Run a list of submissions, counting how many returned immediately
(in manual mode: exactly the ones that consumed the standing grant). -/
def submitRun (q : ApprovalQueue) : List (String × Callable) → Nat × ApprovalQueue
  | [] => (0, q)
  | (d, c) :: rest =>
    match request_approval q d c with
    | SubmitStep.done _ q2 =>
        let p := submitRun q2 rest
        (p.1 + 1, p.2)
    | SubmitStep.blocked _ q2 => submitRun q2 rest

/-- Number of history entries that have been decided (`approved` is not `None`). -/
def decidedCount (l : List ApprovalRequest) : Nat :=
  (l.filter (fun r => r.approved.isSome)).length

/-! ### Basic lemmas about the request store -/

lemma set_req_nil (r : ApprovalRequest) : set_req [] r = [] := rfl

lemma set_req_cons (a : ApprovalRequest) (t : List ApprovalRequest) (r : ApprovalRequest) :
    set_req (a :: t) r = (if a.id = r.id then r else a) :: set_req t r := rfl

lemma execute_request_id (r : ApprovalRequest) : (execute_request r).1.id = r.id := by
  unfold execute_request
  cases r.call_fn none <;> rfl

lemma execute_request_approved_ne (r : ApprovalRequest) :
    (execute_request r).1.approved ≠ none := by
  unfold execute_request
  cases r.call_fn none <;> simp

lemma execute_request_exec (r : ApprovalRequest) :
    (execute_request r).1.exec_count = r.exec_count + 1 := by
  unfold execute_request
  cases r.call_fn none <;> rfl

/-- The ids carried by the history entries, in order. -/
def idsOf (l : List ApprovalRequest) : List Nat := l.map (fun r => r.id)

lemma idsOf_set_req (l : List ApprovalRequest) (r : ApprovalRequest) :
    idsOf (set_req l r) = idsOf l := by
  induction l with
  | nil => rfl
  | cons a t ih =>
    rw [set_req_cons]
    by_cases h : a.id = r.id
    · simp only [if_pos h, idsOf, List.map_cons] at ih ⊢
      rw [ih, h]
  /- the two branches share the tail rewrite -/
    · simp only [if_neg h, idsOf, List.map_cons] at ih ⊢
      rw [ih]

lemma idsOf_append (l l' : List ApprovalRequest) :
    idsOf (l ++ l') = idsOf l ++ idsOf l' := by
  simp [idsOf]

lemma findReq_eq_some_id {l : List ApprovalRequest} {i : Nat} {r : ApprovalRequest}
    (h : findReq l i = some r) : r.id = i := by
  induction l with
  | nil => simp [findReq] at h
  | cons a t ih =>
    by_cases ha : a.id = i
    · simp only [findReq, if_pos ha] at h
      cases h
      exact ha
    · simp only [findReq, if_neg ha] at h
      exact ih h

lemma findReq_mem {l : List ApprovalRequest} {i : Nat} {r : ApprovalRequest}
    (h : findReq l i = some r) : r ∈ l := by
  induction l with
  | nil => simp [findReq] at h
  | cons a t ih =>
    by_cases ha : a.id = i
    · simp only [findReq, if_pos ha] at h
      injection h with h2
      rw [← h2]
      exact List.mem_cons_self a t
    · simp only [findReq, if_neg ha] at h
      exact List.mem_cons_of_mem a (ih h)

lemma findReq_eq_none_iff {l : List ApprovalRequest} {i : Nat} :
    findReq l i = none ↔ ∀ x ∈ l, x.id ≠ i := by
  induction l with
  | nil => simp [findReq]
  | cons a t ih =>
    by_cases ha : a.id = i
    · simp [findReq, ha]
    · simp [findReq, ha, ih]

lemma findReq_append_some {l : List ApprovalRequest} (l' : List ApprovalRequest)
    {i : Nat} {r : ApprovalRequest} (hf : findReq l i = some r) :
    findReq (l ++ l') i = some r := by
  induction l with
  | nil => simp [findReq] at hf
  | cons a t ih =>
    by_cases ha : a.id = i
    · simp only [findReq, if_pos ha] at hf ⊢
      exact hf
    · simp only [List.cons_append, findReq, if_neg ha] at hf ⊢
      exact ih hf

lemma findReq_append_none {l : List ApprovalRequest} (l' : List ApprovalRequest)
    {i : Nat} (hf : findReq l i = none) :
    findReq (l ++ l') i = findReq l' i := by
  induction l with
  | nil => rfl
  | cons a t ih =>
    by_cases ha : a.id = i
    · simp [findReq, ha] at hf
    · simp only [findReq, if_neg ha] at hf
      simp only [List.cons_append, findReq, if_neg ha]
      exact ih hf

lemma findReq_set_req_other (l : List ApprovalRequest) (r' : ApprovalRequest) (i : Nat)
    (h : i ≠ r'.id) :
    findReq (set_req l r') i = findReq l i := by
  induction l with
  | nil => rfl
  | cons a t ih =>
    rw [set_req_cons]
    by_cases ha : a.id = r'.id
    · have h1 : ¬ (r'.id = i) := fun hh => h hh.symm
      have h2 : ¬ (a.id = i) := by omega
      simp only [if_pos ha, findReq, if_neg h1, if_neg h2]
      exact ih
    · rw [if_neg ha]
      by_cases hb : a.id = i
      · simp only [findReq, if_pos hb]
      · simp only [findReq, if_neg hb]
        exact ih

lemma findReq_set_req_self (l : List ApprovalRequest) (r r' : ApprovalRequest)
    (hf : findReq l r'.id = some r) :
    findReq (set_req l r') r'.id = some r' := by
  induction l with
  | nil => simp [findReq] at hf
  | cons a t ih =>
    rw [set_req_cons]
    by_cases ha : a.id = r'.id
    · simp [findReq, if_pos ha]
    · rw [if_neg ha]
      simp only [findReq, if_neg ha] at hf ⊢
      exact ih hf

/-! ### Decision monotonicity and the execute-at-most-once invariant -/

/-- Relation `MonoL l l'`: every request that is decided in `l` is still decided, with
the same decision, in `l'` (looked up through `findReq`). -/
def MonoL (l l' : List ApprovalRequest) : Prop :=
  ∀ i b, (findReq l i).map (fun r => r.approved) = some (some b) →
         (findReq l' i).map (fun r => r.approved) = some (some b)

lemma monoL_refl (l : List ApprovalRequest) : MonoL l l := fun _ _ h => h

lemma monoL_trans {l₁ l₂ l₃ : List ApprovalRequest}
    (h1 : MonoL l₁ l₂) (h2 : MonoL l₂ l₃) : MonoL l₁ l₃ :=
  fun i b h => h2 i b (h1 i b h)

lemma monoL_append (l l' : List ApprovalRequest) : MonoL l (l ++ l') := by
  intro i b h
  rcases Option.map_eq_some'.mp h with ⟨r, hr, hab⟩
  rw [findReq_append_some l' hr]
  simp [hab]

lemma monoL_set_of_undecided (l : List ApprovalRequest) (r r' : ApprovalRequest)
    (hf : findReq l r'.id = some r) (hu : r.approved = none) :
    MonoL l (set_req l r') := by
  intro i b h
  by_cases hi : i = r'.id
  · subst hi
    rw [hf] at h
    simp only [Option.map_some'] at h
    injection h with h2
    rw [hu] at h2
    cases h2
  · rw [findReq_set_req_other l r' i hi]
    exact h

/-- Invariant: each history entry was executed at most once, and an undecided
entry was never executed. -/
def ExecInv (l : List ApprovalRequest) : Prop :=
  ∀ r ∈ l, r.exec_count ≤ 1 ∧ (r.approved = none → r.exec_count = 0)

lemma execInv_append (l : List ApprovalRequest) (r : ApprovalRequest)
    (hinv : ExecInv l) (h1 : r.exec_count = 0) :
    ExecInv (l ++ [r]) := by
  intro x hx
  rcases List.mem_append.mp hx with hx | hx
  · exact hinv x hx
  · rcases List.mem_singleton.mp hx with rfl
    exact ⟨by omega, fun _ => h1⟩

lemma execInv_set_exec (l : List ApprovalRequest) (r : ApprovalRequest)
    (hinv : ExecInv l) (hr : r ∈ l) (hu : r.approved = none) :
    ExecInv (set_req l (execute_request r).1) := by
  intro x hx
  rcases List.mem_map.mp hx with ⟨y, hy, hxy⟩
  by_cases h : y.id = (execute_request r).1.id
  · have hx' : x = (execute_request r).1 := by rw [← hxy, if_pos h]
    subst hx'
    refine ⟨?_, fun hcon => absurd hcon (execute_request_approved_ne r)⟩
    rw [execute_request_exec, (hinv r hr).2 hu]
  · have hx' : x = y := by rw [← hxy, if_neg h]
    rw [hx']
    exact hinv y hy

lemma execInv_set_deny (l : List ApprovalRequest) (r : ApprovalRequest)
    (hinv : ExecInv l) (hr : r ∈ l) :
    ExecInv (set_req l { r with approved := some false }) := by
  intro x hx
  rcases List.mem_map.mp hx with ⟨y, hy, hxy⟩
  by_cases h : y.id = ({ r with approved := some false } : ApprovalRequest).id
  · have hx' : x = ({ r with approved := some false } : ApprovalRequest) := by
      rw [← hxy, if_pos h]
    subst hx'
    exact ⟨(hinv r hr).1, fun hcon => by cases hcon⟩
  · have hx' : x = y := by rw [← hxy, if_neg h]
    rw [hx']
    exact hinv y hy

/-! ### Drain loop lemmas -/

lemma monoL_drainStep (reqs : List ApprovalRequest) (rid : Nat) :
    MonoL reqs (drainStep reqs rid) := by
  cases hf : findReq reqs rid with
  | none =>
    simp only [drainStep, hf]
    exact monoL_refl _
  | some r =>
    by_cases hu : r.approved = none
    · simp only [drainStep, hf, if_pos hu]
      refine monoL_set_of_undecided reqs r _ ?_ hu
      rw [execute_request_id, findReq_eq_some_id hf]
      exact hf
    · simp only [drainStep, hf, if_neg hu]
      exact monoL_refl _

lemma execInv_drainStep (reqs : List ApprovalRequest) (rid : Nat)
    (hinv : ExecInv reqs) : ExecInv (drainStep reqs rid) := by
  cases hf : findReq reqs rid with
  | none =>
    simp only [drainStep, hf]
    exact hinv
  | some r =>
    by_cases hu : r.approved = none
    · simp only [drainStep, hf, if_pos hu]
      exact execInv_set_exec reqs r hinv (findReq_mem hf) hu
    · simp only [drainStep, hf, if_neg hu]
      exact hinv

lemma idsOf_drainStep (reqs : List ApprovalRequest) (rid : Nat) :
    idsOf (drainStep reqs rid) = idsOf reqs := by
  cases hf : findReq reqs rid with
  | none => simp only [drainStep, hf]
  | some r =>
    by_cases hu : r.approved = none
    · simp only [drainStep, hf, if_pos hu]
      exact idsOf_set_req _ _
    · simp only [drainStep, hf, if_neg hu]

lemma monoL_drainLoop (fifo : List Nat) (c : Int) (reqs : List ApprovalRequest) :
    MonoL reqs (drainLoop fifo c reqs).2 := by
  induction fifo generalizing c reqs with
  | nil =>
    unfold drainLoop
    split
    · exact monoL_refl _
    · exact monoL_refl _
  | cons rid rest ih =>
    unfold drainLoop
    by_cases hc : c ≤ 0
    · rw [if_pos hc]
      exact monoL_refl _
    · rw [if_neg hc]
      exact monoL_trans (monoL_drainStep reqs rid) (ih (c - 1) (drainStep reqs rid))

lemma execInv_drainLoop (fifo : List Nat) (c : Int) (reqs : List ApprovalRequest)
    (hinv : ExecInv reqs) : ExecInv (drainLoop fifo c reqs).2 := by
  induction fifo generalizing c reqs with
  | nil =>
    unfold drainLoop
    split
    · exact hinv
    · exact hinv
  | cons rid rest ih =>
    unfold drainLoop
    by_cases hc : c ≤ 0
    · rw [if_pos hc]
      exact hinv
    · rw [if_neg hc]
      exact ih (c - 1) (drainStep reqs rid) (execInv_drainStep reqs rid hinv)

lemma idsOf_drainLoop (fifo : List Nat) (c : Int) (reqs : List ApprovalRequest) :
    idsOf (drainLoop fifo c reqs).2 = idsOf reqs := by
  induction fifo generalizing c reqs with
  | nil =>
    unfold drainLoop
    split
    · rfl
    · rfl
  | cons rid rest ih =>
    unfold drainLoop
    by_cases hc : c ≤ 0
    · rw [if_pos hc]
    · rw [if_neg hc]
      rw [ih (c - 1) (drainStep reqs rid), idsOf_drainStep]

/-! ### Branch characterisations of `request_approval` -/

lemma request_approval_auto (q : ApprovalQueue) (d : String) (c : Callable)
    (hm : q.mode = "auto") :
    request_approval q d c =
      match c none with
      | Except.ok v => SubmitStep.done (some v) q
      | Except.error _ => SubmitStep.done none q := by
  simp only [request_approval, if_pos hm]

lemma request_approval_dryrun (q : ApprovalQueue) (d : String) (c : Callable)
    (hm : q.mode ≠ "auto") (hd : q.mode = "dryrun") :
    request_approval q d c =
      SubmitStep.done none
        (set_request (enqueue q d c).2 { (enqueue q d c).1 with approved := some false }) := by
  simp only [request_approval, if_neg hm, if_pos hd]

lemma request_approval_manual_grant (q : ApprovalQueue) (d : String) (c : Callable)
    (hm : q.mode ≠ "auto") (hd : q.mode ≠ "dryrun") (hg : 0 < q.auto_approve_count) :
    request_approval q d c =
      SubmitStep.done (execute_request (enqueue q d c).1).2
        (set_request
          { (enqueue q d c).2 with auto_approve_count := q.auto_approve_count - 1 }
          (execute_request (enqueue q d c).1).1) := by
  simp only [request_approval, if_neg hm, if_neg hd]
  rw [if_pos (show 0 < (enqueue q d c).2.auto_approve_count from hg)]
  rfl

lemma request_approval_manual_blocked (q : ApprovalQueue) (d : String) (c : Callable)
    (hm : q.mode ≠ "auto") (hd : q.mode ≠ "dryrun") (hg : q.auto_approve_count = 0) :
    request_approval q d c = SubmitStep.blocked q.next_id (enqueue q d c).2 := by
  simp only [request_approval, if_neg hm, if_neg hd]
  rw [if_neg (by simp [enqueue, hg])]
  rfl

/-! ### Well-formedness of reachable states -/

/-- Well-formedness: ids strictly increase along the history (hence are unique),
every id is below `next_id`, and the execute-at-most-once invariant holds. -/
def WF (q : ApprovalQueue) : Prop :=
  List.Pairwise (· < ·) (idsOf q.requests) ∧
  (∀ r ∈ q.requests, r.id < q.next_id) ∧
  ExecInv q.requests

lemma findReq_fresh (l : List ApprovalRequest) (n : Nat)
    (h : ∀ r ∈ l, r.id < n) : findReq l n = none :=
  findReq_eq_none_iff.mpr (fun x hx => by have := h x hx; omega)

lemma findReq_enqueue (q : ApprovalQueue) (d : String) (c : Callable)
    (h : ∀ r ∈ q.requests, r.id < q.next_id) :
    findReq (enqueue q d c).2.requests q.next_id = some (enqueue q d c).1 := by
  show findReq (q.requests ++ [(enqueue q d c).1]) q.next_id = some (enqueue q d c).1
  rw [findReq_append_none _ (findReq_fresh _ _ h)]
  simp [findReq, enqueue]

lemma wf_enqueue (q : ApprovalQueue) (d : String) (c : Callable) (h : WF q) :
    WF (enqueue q d c).2 := by
  obtain ⟨h1, h2, h3⟩ := h
  refine ⟨?_, ?_, ?_⟩
  · show List.Pairwise (· < ·) (idsOf (q.requests ++ [(enqueue q d c).1]))
    rw [idsOf_append, List.pairwise_append]
    refine ⟨h1, List.pairwise_singleton _ _, ?_⟩
    intro a ha b hb
    rcases List.mem_map.mp ha with ⟨x, hx, rfl⟩
    have hb' : b = q.next_id := by simpa [idsOf, enqueue] using hb
    rw [hb']
    exact h2 x hx
  · intro r hr
    rcases List.mem_append.mp hr with hr | hr
    · have := h2 r hr
      show r.id < q.next_id + 1
      omega
    · rcases List.mem_singleton.mp hr with rfl
      show q.next_id < q.next_id + 1
      omega
  · exact execInv_append _ _ h3 rfl

lemma wf_set_request (q : ApprovalQueue) (r' : ApprovalRequest)
    (h : WF q) (hlt : r'.id < q.next_id)
    (hexec : ExecInv (set_req q.requests r')) :
    WF (set_request q r') := by
  obtain ⟨h1, h2, _⟩ := h
  refine ⟨?_, ?_, hexec⟩
  · show List.Pairwise (· < ·) (idsOf (set_req q.requests r'))
    rw [idsOf_set_req]
    exact h1
  · intro r hr
    rcases List.mem_map.mp hr with ⟨y, hy, hxy⟩
    by_cases hc : y.id = r'.id
    · rw [← hxy, if_pos hc]
      exact hlt
    · rw [← hxy, if_neg hc]
      exact h2 y hy

lemma fresh_of_idsOf_eq {l l' : List ApprovalRequest} {n : Nat}
    (hid : idsOf l' = idsOf l) (h : ∀ r ∈ l, r.id < n) : ∀ r ∈ l', r.id < n := by
  intro r hr
  have hr' : r.id ∈ idsOf l := by
    rw [← hid]
    exact List.mem_map_of_mem _ hr
  rcases List.mem_map.mp hr' with ⟨x, hx, hxe⟩
  rw [← hxe]
  exact h x hx

/-! ### Preservation of well-formedness and decision monotonicity per operation -/

lemma wf_submit (q : ApprovalQueue) (d : String) (c : Callable) (h : WF q) :
    WF (request_approval q d c).state := by
  by_cases hm : q.mode = "auto"
  · rw [request_approval_auto q d c hm]
    cases c none
    · exact h
    · exact h
  · by_cases hd : q.mode = "dryrun"
    · rw [request_approval_dryrun q d c hm hd]
      have hwf1 := wf_enqueue q d c h
      apply wf_set_request _ _ hwf1
      · show q.next_id < q.next_id + 1
        omega
      · exact execInv_set_deny _ _ hwf1.2.2
          (List.mem_append_right _ (List.mem_singleton_self _))
    · by_cases hg : 0 < q.auto_approve_count
      · rw [request_approval_manual_grant q d c hm hd hg]
        have hwf1 := wf_enqueue q d c h
        have hwf2 : WF { (enqueue q d c).2 with
            auto_approve_count := q.auto_approve_count - 1 } := hwf1
        apply wf_set_request _ _ hwf2
        · rw [execute_request_id]
          show q.next_id < q.next_id + 1
          omega
        · exact execInv_set_exec _ _ hwf2.2.2
            (List.mem_append_right _ (List.mem_singleton_self _)) rfl
      · rw [request_approval_manual_blocked q d c hm hd (by omega)]
        exact wf_enqueue q d c h

lemma mono_submit (q : ApprovalQueue) (d : String) (c : Callable)
    (h2 : ∀ r ∈ q.requests, r.id < q.next_id) :
    MonoL q.requests (request_approval q d c).state.requests := by
  by_cases hm : q.mode = "auto"
  · rw [request_approval_auto q d c hm]
    cases c none
    · exact monoL_refl _
    · exact monoL_refl _
  · by_cases hd : q.mode = "dryrun"
    · rw [request_approval_dryrun q d c hm hd]
      refine monoL_trans (monoL_append q.requests [(enqueue q d c).1]) ?_
      exact monoL_set_of_undecided _ (enqueue q d c).1 _ (findReq_enqueue q d c h2) rfl
    · by_cases hg : 0 < q.auto_approve_count
      · rw [request_approval_manual_grant q d c hm hd hg]
        refine monoL_trans (monoL_append q.requests [(enqueue q d c).1]) ?_
        refine monoL_set_of_undecided _ (enqueue q d c).1 _ ?_ rfl
        rw [execute_request_id]
        exact findReq_enqueue q d c h2
      · rw [request_approval_manual_blocked q d c hm hd (by omega)]
        exact monoL_append q.requests [(enqueue q d c).1]

lemma wf_approve (q : ApprovalQueue) (rid : Nat) (h : WF q) :
    WF (approve_request q rid).2 := by
  cases hf : find_request q rid with
  | none =>
    simp only [approve_request, hf]
    exact h
  | some r =>
    by_cases hu : r.approved = none
    · simp only [approve_request, hf, if_pos hu]
      show WF (set_request q (execute_request r).1)
      apply wf_set_request _ _ h
      · rw [execute_request_id]
        exact h.2.1 r (findReq_mem hf)
      · exact execInv_set_exec _ _ h.2.2 (findReq_mem hf) hu
    · simp only [approve_request, hf, if_neg hu]
      exact h

lemma mono_approve (q : ApprovalQueue) (rid : Nat) :
    MonoL q.requests (approve_request q rid).2.requests := by
  cases hf : find_request q rid with
  | none =>
    simp only [approve_request, hf]
    exact monoL_refl _
  | some r =>
    by_cases hu : r.approved = none
    · simp only [approve_request, hf, if_pos hu]
      show MonoL q.requests (set_req q.requests (execute_request r).1)
      refine monoL_set_of_undecided _ r _ ?_ hu
      rw [execute_request_id, findReq_eq_some_id hf]
      exact hf
    · simp only [approve_request, hf, if_neg hu]
      exact monoL_refl _

lemma wf_deny (q : ApprovalQueue) (rid : Nat) (h : WF q) :
    WF (deny_request q rid).2 := by
  cases hf : find_request q rid with
  | none =>
    simp only [deny_request, hf]
    exact h
  | some r =>
    by_cases hu : r.approved = none
    · simp only [deny_request, hf, if_pos hu]
      show WF (set_request q { r with approved := some false })
      apply wf_set_request _ _ h
      · exact h.2.1 r (findReq_mem hf)
      · exact execInv_set_deny _ _ h.2.2 (findReq_mem hf)
    · simp only [deny_request, hf, if_neg hu]
      exact h

lemma mono_deny (q : ApprovalQueue) (rid : Nat) :
    MonoL q.requests (deny_request q rid).2.requests := by
  cases hf : find_request q rid with
  | none =>
    simp only [deny_request, hf]
    exact monoL_refl _
  | some r =>
    by_cases hu : r.approved = none
    · simp only [deny_request, hf, if_pos hu]
      show MonoL q.requests (set_req q.requests { r with approved := some false })
      refine monoL_set_of_undecided _ r _ ?_ hu
      rw [show ({ r with approved := some false } : ApprovalRequest).id = r.id from rfl,
          findReq_eq_some_id hf]
      exact hf
    · simp only [deny_request, hf, if_neg hu]
      exact monoL_refl _

lemma wf_batch (q : ApprovalQueue) (n : Int) (h : WF q) : WF (approve_batch q n) := by
  obtain ⟨h1, h2, h3⟩ := h
  refine ⟨?_, ?_, ?_⟩
  · show List.Pairwise (· < ·) (idsOf (drainLoop q.queue n q.requests).2)
    rw [idsOf_drainLoop]
    exact h1
  · show ∀ r ∈ (drainLoop q.queue n q.requests).2, r.id < q.next_id
    exact fresh_of_idsOf_eq (idsOf_drainLoop _ _ _) h2
  · exact execInv_drainLoop _ _ _ h3

lemma mono_batch (q : ApprovalQueue) (n : Int) :
    MonoL q.requests (approve_batch q n).requests := by
  show MonoL q.requests (drainLoop q.queue n q.requests).2
  exact monoL_drainLoop _ _ _

lemma wf_applyOp (q : ApprovalQueue) (op : Op) (h : WF q) : WF (applyOp q op) := by
  cases op with
  | submit d c => exact wf_submit q d c h
  | approve rid => exact wf_approve q rid h
  | deny rid => exact wf_deny q rid h
  | batch n => exact wf_batch q n h
  | approveAll => exact wf_batch q _ h

lemma mono_applyOp (q : ApprovalQueue) (op : Op) (h : WF q) :
    MonoL q.requests (applyOp q op).requests := by
  cases op with
  | submit d c => exact mono_submit q d c h.2.1
  | approve rid => exact mono_approve q rid
  | deny rid => exact mono_deny q rid
  | batch n => exact mono_batch q n
  | approveAll => exact mono_batch q _

lemma wf_init (mode : String) : WF (ApprovalQueue.init mode) := by
  refine ⟨?_, ?_, ?_⟩
  · simp [ApprovalQueue.init, idsOf]
  · intro r hr
    simp [ApprovalQueue.init] at hr
  · intro r hr
    simp [ApprovalQueue.init] at hr

lemma wf_foldl (l : List Op) (q : ApprovalQueue) (h : WF q) :
    WF (l.foldl applyOp q) := by
  induction l generalizing q with
  | nil => exact h
  | cons op t ih => exact ih _ (wf_applyOp q op h)

lemma mono_foldl (l : List Op) (q : ApprovalQueue) (h : WF q) :
    MonoL q.requests (l.foldl applyOp q).requests := by
  induction l generalizing q with
  | nil => exact monoL_refl _
  | cons op t ih =>
    exact monoL_trans (mono_applyOp q op h) (ih _ (wf_applyOp q op h))

lemma wf_runOps (mode : String) (ops : List Op) : WF (runOps mode ops) :=
  wf_foldl ops _ (wf_init mode)

/-! ### Queue-level lookup lemmas -/

lemma find_request_set_self (q : ApprovalQueue) (r r' : ApprovalRequest)
    (hf : find_request q r'.id = some r) :
    find_request (set_request q r') r'.id = some r' :=
  findReq_set_req_self _ r r' hf

lemma find_request_set_other (q : ApprovalQueue) (r' : ApprovalRequest) (i : Nat)
    (h : i ≠ r'.id) :
    find_request (set_request q r') i = find_request q i :=
  findReq_set_req_other _ _ _ h

/-! ### Concrete fixtures used by the claim theorems and witnesses -/

/-- A callable that returns 11 (never raises). -/
def c_ok1 : Callable := fun _ => Except.ok 11

/-- A callable that returns 22 (never raises). -/
def c_ok2 : Callable := fun _ => Except.ok 22

/-- A callable that returns 33 (never raises). -/
def c_ok3 : Callable := fun _ => Except.ok 33

/-- A callable that always raises. -/
def c_boom : Callable := fun _ => Except.error "boom"

/-- A pending request whose callable raises when invoked. -/
def req_raise : ApprovalRequest := { id := 1, description := "call", call_fn := c_boom }

/-- A manual-mode queue holding only `req_raise`, still undecided. -/
def q_raise : ApprovalQueue :=
  { mode := "manual", queue := [1], requests := [req_raise],
    next_id := 2, auto_approve_count := 0 }

/-- A pending request with a well-behaved callable, for the deny witness. -/
def req_dw : ApprovalRequest := { id := 1, description := "w", call_fn := c_ok1 }

/-- A manual-mode queue holding only `req_dw`, still undecided. -/
def q_dw : ApprovalQueue :=
  { mode := "manual", queue := [1], requests := [req_dw],
    next_id := 2, auto_approve_count := 0 }

/-! ### Claim C1 -/

/-- Claim C1 counterexample: on the concrete manual-mode queue `q_raise`, whose
single pending request's callable raises, `approve_request` returns `None` and
captures the exception in `error`, but the decision is *not* set to approved:
the source's `_execute_request` sets `approved = False` on a raise, so the
claim's "sets the request's decision to approved" is false here. -/
theorem approve_raising_cex :
    (approve_request q_raise 1).1 = none ∧
    reqError (approve_request q_raise 1).2 1 = some (some "boom") ∧
    reqDecision (approve_request q_raise 1).2 1 ≠ some (some true) := by
  decide

/-- Claim C1 (amended): for every request that is still pending (undecided, no
stored result) whose callable raises when executed via `approve_request`, the
queue captures the exception in the request's `error` field, sets the decision
to denied (`approved = False`), and `approve_request` returns `None`. -/
theorem approve_raising_captures_error_sets_denied
    (q : ApprovalQueue) (rid : Nat) (r : ApprovalRequest) (e : Err)
    (hf : find_request q rid = some r) (hu : r.approved = none)
    (hres : r.result = none) (herr : r.call_fn none = Except.error e) :
    (approve_request q rid).1 = none ∧
    reqDecision (approve_request q rid).2 rid = some (some false) ∧
    reqError (approve_request q rid).2 rid = some (some e) := by
  have hid : r.id = rid := findReq_eq_some_id hf
  subst hid
  have hexec : execute_request r =
      ({ r with error := some e, approved := some false,
                exec_count := r.exec_count + 1 }, r.result) := by
    unfold execute_request
    rw [herr]
  have hf' : find_request q
      ({ r with error := some e, approved := some false,
                exec_count := r.exec_count + 1 } : ApprovalRequest).id = some r := hf
  have hfind : find_request
      (set_request q { r with error := some e, approved := some false,
                              exec_count := r.exec_count + 1 }) r.id =
      some { r with error := some e, approved := some false,
                    exec_count := r.exec_count + 1 } :=
    find_request_set_self q r _ hf'
  refine ⟨?_, ?_, ?_⟩
  · simp only [approve_request, hf, if_pos hu, hexec]
    exact hres
  · simp only [approve_request, hf, if_pos hu, hexec, reqDecision, hfind,
      Option.map_some']
  · simp only [approve_request, hf, if_pos hu, hexec, reqError, hfind,
      Option.map_some']

/-- Witness for the amended C1 theorem at the concrete queue `q_raise`. -/
theorem approve_raising_captures_error_sets_denied_w :
    (approve_request q_raise 1).1 = none ∧
    reqDecision (approve_request q_raise 1).2 1 = some (some false) ∧
    reqError (approve_request q_raise 1).2 1 = some (some "boom") :=
  approve_raising_captures_error_sets_denied q_raise 1 req_raise "boom" rfl rfl rfl rfl

/-- The request object created by `enqueue` (named so record updates on it
elaborate cleanly). -/
def enq_req (q : ApprovalQueue) (d : String) (c : Callable) : ApprovalRequest :=
  (enqueue q d c).1

/-! ### Claim C5 -/

/-- Claim C5: in manual mode with no standing grant, a submission reaches the
blocking wait (`SubmitStep.blocked`); if the finite timeout elapses with no
decision, the submitter's return value (`wake_result` on the unchanged state)
is `None`, the request is still in the queue and undecided, and a later
`approve_request` on its id executes the callable and returns its real
result (decision becomes approved, result stored). -/
theorem manual_timeout_leaves_pending_then_approve
    (q : ApprovalQueue) (d : String) (c : Callable) (v : Val)
    (hm : q.mode ≠ "auto") (hd : q.mode ≠ "dryrun")
    (hg : q.auto_approve_count = 0)
    (hfresh : ∀ r ∈ q.requests, r.id < q.next_id)
    (hok : c none = Except.ok v) :
    request_approval q d c = SubmitStep.blocked q.next_id (enqueue q d c).2 ∧
    wake_result (enqueue q d c).2 q.next_id = none ∧
    reqDecision (enqueue q d c).2 q.next_id = some none ∧
    (approve_request (enqueue q d c).2 q.next_id).1 = some v ∧
    reqDecision (approve_request (enqueue q d c).2 q.next_id).2 q.next_id =
      some (some true) ∧
    reqResult (approve_request (enqueue q d c).2 q.next_id).2 q.next_id =
      some (some v) := by
  have hfind : find_request (enqueue q d c).2 q.next_id = some (enq_req q d c) :=
    findReq_enqueue q d c hfresh
  have hcall : (enq_req q d c).call_fn none = Except.ok v := hok
  have hexec : execute_request (enq_req q d c) =
      ({ enq_req q d c with result := some v, approved := some true,
                                exec_count := (enq_req q d c).exec_count + 1 }, some v) := by
    unfold execute_request
    rw [hcall]
  have hf' : find_request (enqueue q d c).2
      ({ enq_req q d c with result := some v, approved := some true,
                                exec_count := (enq_req q d c).exec_count + 1 } : ApprovalRequest).id =
      some (enq_req q d c) := hfind
  have hfind2 : find_request
      (set_request (enqueue q d c).2
        { enq_req q d c with result := some v, approved := some true,
                                exec_count := (enq_req q d c).exec_count + 1 }) q.next_id =
      some { enq_req q d c with result := some v, approved := some true,
                                exec_count := (enq_req q d c).exec_count + 1 } :=
    find_request_set_self (enqueue q d c).2 (enq_req q d c) _ hf'
  refine ⟨request_approval_manual_blocked q d c hm hd hg, ?_, ?_, ?_, ?_, ?_⟩
  · simp only [wake_result, hfind]
    rw [if_neg (show ¬ ((enq_req q d c).approved = some true) from by
      simp [enq_req, enqueue])]
  · simp only [reqDecision, hfind, Option.map_some']
    rfl
  · simp only [approve_request, hfind,
      if_pos (show (enq_req q d c).approved = none from rfl), hexec]
  · simp only [approve_request, hfind,
      if_pos (show (enq_req q d c).approved = none from rfl), hexec,
      reqDecision, hfind2, Option.map_some']
  · simp only [approve_request, hfind,
      if_pos (show (enq_req q d c).approved = none from rfl), hexec,
      reqResult, hfind2, Option.map_some']

/-- Witness for C5 on a fresh manual queue: timeout yields `None`, the request
stays pending, and a later approval returns the callable's value 11. -/
theorem manual_timeout_leaves_pending_then_approve_w :
    request_approval (ApprovalQueue.init "manual") "llm call" c_ok1 =
      SubmitStep.blocked (ApprovalQueue.init "manual").next_id
        (enqueue (ApprovalQueue.init "manual") "llm call" c_ok1).2 ∧
    wake_result (enqueue (ApprovalQueue.init "manual") "llm call" c_ok1).2
      (ApprovalQueue.init "manual").next_id = none ∧
    reqDecision (enqueue (ApprovalQueue.init "manual") "llm call" c_ok1).2
      (ApprovalQueue.init "manual").next_id = some none ∧
    (approve_request (enqueue (ApprovalQueue.init "manual") "llm call" c_ok1).2
      (ApprovalQueue.init "manual").next_id).1 = some 11 ∧
    reqDecision (approve_request
        (enqueue (ApprovalQueue.init "manual") "llm call" c_ok1).2
        (ApprovalQueue.init "manual").next_id).2
      (ApprovalQueue.init "manual").next_id = some (some true) ∧
    reqResult (approve_request
        (enqueue (ApprovalQueue.init "manual") "llm call" c_ok1).2
        (ApprovalQueue.init "manual").next_id).2
      (ApprovalQueue.init "manual").next_id = some (some 11) :=
  manual_timeout_leaves_pending_then_approve (ApprovalQueue.init "manual")
    "llm call" c_ok1 11 (by decide) (by decide) rfl
    (by intro r hr; simp [ApprovalQueue.init] at hr) rfl

/-! ### Claim C6 -/

/-- Claim C6: along every operation history from a fresh queue, every request's
callable has been executed at most once (ghost counter), and a decided request
keeps its decision unchanged under any further operations — so a decision
changes at most once, from undecided to a terminal value. -/
theorem decision_terminal_and_exec_at_most_once (mode : String) (ops rest : List Op) :
    (∀ r ∈ (runOps mode ops).requests, r.exec_count ≤ 1) ∧
    (∀ rid b, reqDecision (runOps mode ops) rid = some (some b) →
      reqDecision (runOps mode (ops ++ rest)) rid = some (some b)) := by
  constructor
  · intro r hr
    exact ((wf_runOps mode ops).2.2 r hr).1
  · intro rid b hb
    have heq : runOps mode (ops ++ rest) = rest.foldl applyOp (runOps mode ops) := by
      rw [runOps, runOps, List.foldl_append]
    rw [heq]
    exact mono_foldl rest _ (wf_runOps mode ops) rid b hb

/-- Witness for C6: a denied request stays denied across a later batch drain. -/
theorem decision_terminal_and_exec_at_most_once_w :
    reqDecision (runOps "manual"
      ([Op.submit "a" c_ok1, Op.deny 1] ++ [Op.batch 2])) 1 = some (some false) :=
  (decision_terminal_and_exec_at_most_once "manual"
    [Op.submit "a" c_ok1, Op.deny 1] [Op.batch 2]).2 1 false (by decide)

/-! ### Claim C8 -/

/-- Claim C8: `deny_request` returns `True` iff the id exists and is still
undecided; in that case it only flips the decision to denied (result, error and
the ghost execution counter are untouched, so the callable is never executed);
in every other case it returns `False` and leaves the state unchanged. -/
theorem deny_request_spec (q : ApprovalQueue) (rid : Nat) :
    ((deny_request q rid).1 = true ↔
      ∃ r, find_request q rid = some r ∧ r.approved = none) ∧
    (∀ r, find_request q rid = some r → r.approved = none →
      deny_request q rid = (true, set_request q { r with approved := some false })) ∧
    ((deny_request q rid).1 = false → (deny_request q rid).2 = q) := by
  refine ⟨⟨?_, ?_⟩, ?_, ?_⟩
  · intro h
    cases hf : find_request q rid with
    | none => simp [deny_request, hf] at h
    | some r =>
      by_cases hu : r.approved = none
      · exact ⟨r, rfl, hu⟩
      · simp [deny_request, hf, if_neg hu] at h
  · rintro ⟨r, hf, hu⟩
    simp [deny_request, hf, if_pos hu]
  · intro r hf hu
    simp [deny_request, hf, if_pos hu]
  · intro h
    cases hf : find_request q rid with
    | none => simp [deny_request, hf]
    | some r =>
      by_cases hu : r.approved = none
      · simp [deny_request, hf, if_pos hu] at h
      · simp [deny_request, hf, if_neg hu]

/-- Witness for C8 on the concrete queue `q_dw` with its pending request. -/
theorem deny_request_spec_w :
    (deny_request q_dw 1).1 = true ∧
    deny_request q_dw 1 = (true, set_request q_dw { req_dw with approved := some false }) :=
  ⟨(deny_request_spec q_dw 1).1.mpr ⟨req_dw, rfl, rfl⟩,
   (deny_request_spec q_dw 1).2.1 req_dw rfl rfl⟩

/-! ### Claim C9 -/

/-- A callable that would report the overrides payload it receives (0 when it
receives none), mirroring `_do_call(overrides=None)` in the LLM client. -/
def c_ovr : Callable := fun o => Except.ok (o.getD 0)

/-- A manual queue holding one pending overrides-sensitive request. -/
def q_ovr : ApprovalQueue :=
  { mode := "manual", queue := [1],
    requests := [{ id := 1, description := "llm call", call_fn := c_ovr }],
    next_id := 2, auto_approve_count := 0 }

/-- Claim C9 evaluation: the source's `approve_request` takes only the request
id and `_execute_request` always invokes `call_fn()` with no arguments, so an
overrides-accepting callable sees its default (`none`): approving the pending
overrides-sensitive request yields 0, and no overrides value an approver might
supply (e.g. the 5 a spec-conforming `approve(id, overrides)` would pass) can
reach the callable.  The callers `src/gui/main_window.py:427`
(`approve_request(rid, overrides or None)`) and the LLM client's
`_do_call(overrides=None)` expect the overrides channel the queue lacks. -/
theorem approve_ignores_overrides :
    (approve_request q_ovr 1).1 = some 0 ∧
    reqResult (approve_request q_ovr 1).2 1 = some (some 0) ∧
    c_ovr (some 5) = Except.ok 5 := by
  refine ⟨by decide, by decide, rfl⟩

/-! ### Claim C10 -/

/-- Claim C10: along every operation history from a fresh queue (any mode), the
ids in the request history are strictly increasing in submission order — hence
unique, never reused, and `list_pending` order equals submission order. -/
theorem request_ids_strictly_increasing (mode : String) (ops : List Op) :
    List.Pairwise (· < ·) (idsOf (runOps mode ops).requests) :=
  (wf_runOps mode ops).1

/-! ### Claim C4 -/

/-- Claim C4 counterexample: in auto mode a raising callable yields `None` to
the caller but the queue state is completely unchanged — no request record is
created at all, so the raised exception is not captured in any record's
`error` field (the source discards the caught exception on this path). -/
theorem auto_mode_error_unrecorded_cex :
    request_approval (ApprovalQueue.init "auto") "d" c_boom =
      SubmitStep.done none (ApprovalQueue.init "auto") ∧
    (ApprovalQueue.init "auto").requests = [] :=
  ⟨rfl, rfl⟩

/-- Claim C4 (amended): `request_approval` never raises and the caller receives
`None` whenever the callable raises; the exception is captured in the request's
own record only on the paths that have a record — here the manual grant path
stores it in `error` and sets the decision to denied — while in auto mode no
record exists and the exception is discarded. -/
theorem submit_never_raises_flattens_failures
    (q : ApprovalQueue) (d : String) (c : Callable) (e : Err)
    (he : c none = Except.error e) :
    (q.mode = "auto" → request_approval q d c = SubmitStep.done none q) ∧
    (q.mode ≠ "auto" → q.mode ≠ "dryrun" → 0 < q.auto_approve_count →
      (∀ r ∈ q.requests, r.id < q.next_id) →
      SubmitStep.retval (request_approval q d c) = none ∧
      reqError (request_approval q d c).state q.next_id = some (some e) ∧
      reqDecision (request_approval q d c).state q.next_id = some (some false)) := by
  constructor
  · intro hm
    rw [request_approval_auto q d c hm, he]
  · intro hm hd hg hfresh
    rw [request_approval_manual_grant q d c hm hd hg]
    have hfind : find_request (enqueue q d c).2 q.next_id = some (enq_req q d c) :=
      findReq_enqueue q d c hfresh
    have hcall : (enq_req q d c).call_fn none = Except.error e := he
    have hexec : execute_request (enq_req q d c) =
        ({ enq_req q d c with error := some e, approved := some false,
                              exec_count := (enq_req q d c).exec_count + 1 },
         (enq_req q d c).result) := by
      unfold execute_request
      rw [hcall]
    have hf' : find_request
        { (enqueue q d c).2 with auto_approve_count := q.auto_approve_count - 1 }
        ({ enq_req q d c with error := some e, approved := some false,
                              exec_count := (enq_req q d c).exec_count + 1 } :
          ApprovalRequest).id = some (enq_req q d c) := hfind
    have hfind2 : find_request
        (set_request
          { (enqueue q d c).2 with auto_approve_count := q.auto_approve_count - 1 }
          { enq_req q d c with error := some e, approved := some false,
                               exec_count := (enq_req q d c).exec_count + 1 })
        q.next_id =
        some { enq_req q d c with error := some e, approved := some false,
                                  exec_count := (enq_req q d c).exec_count + 1 } :=
      find_request_set_self _ (enq_req q d c) _ hf'
    refine ⟨?_, ?_, ?_⟩
    · show (execute_request (enq_req q d c)).2 = none
      rw [hexec]
      rfl
    · show reqError (set_request _ (execute_request (enq_req q d c)).1) q.next_id =
        some (some e)
      rw [hexec]
      simp only [reqError, hfind2, Option.map_some']
    · show reqDecision (set_request _ (execute_request (enq_req q d c)).1) q.next_id =
        some (some false)
      rw [hexec]
      simp only [reqDecision, hfind2, Option.map_some']

/-- A manual-mode queue with one standing auto-approve grant and no history. -/
def q_g : ApprovalQueue :=
  { ApprovalQueue.init "manual" with auto_approve_count := 1 }

/-- Witness for the amended C4 theorem: a raising callable submitted against a
standing grant returns `None` and its record stores the error, decision denied. -/
theorem submit_never_raises_flattens_failures_w :
    SubmitStep.retval (request_approval q_g "d" c_boom) = none ∧
    reqError (request_approval q_g "d" c_boom).state 1 = some (some "boom") ∧
    reqDecision (request_approval q_g "d" c_boom).state 1 = some (some false) :=
  (submit_never_raises_flattens_failures q_g "d" c_boom "boom" rfl).2
    (by decide) (by decide) (by decide)
    (by intro r hr; simp [q_g, ApprovalQueue.init] at hr)

/-! ### Claim C7 -/

/-- Claim C7 counterexample: submitting in dryrun mode returns `None` and never
invokes the callable (ghost counter 0) and does append a record to the history,
but the record is immediately marked `approved = False`, so it does not appear
in `get_pending_requests` — the pending view the approval surface
(`get_pending_requests_summary`, the GUI list) is built from.  The claim's
"visible to the approval surface" conjunct is false. -/
theorem dryrun_recorded_but_invisible_cex :
    SubmitStep.retval (request_approval (ApprovalQueue.init "dryrun") "d" c_boom) =
      none ∧
    (SubmitStep.state
      (request_approval (ApprovalQueue.init "dryrun") "d" c_boom)).requests.length = 1 ∧
    reqExec (SubmitStep.state
      (request_approval (ApprovalQueue.init "dryrun") "d" c_boom)) 1 = some 0 ∧
    get_pending_requests (SubmitStep.state
      (request_approval (ApprovalQueue.init "dryrun") "d" c_boom)) = [] := by
  refine ⟨rfl, by decide, by decide, rfl⟩

lemma set_req_eq_of_not_mem (l : List ApprovalRequest) (r' : ApprovalRequest)
    (h : ∀ x ∈ l, x.id ≠ r'.id) : set_req l r' = l := by
  induction l with
  | nil => rfl
  | cons a t ih =>
    rw [set_req_cons, if_neg (h a (List.mem_cons_self a t)),
        ih (fun x hx => h x (List.mem_cons_of_mem a hx))]

lemma set_req_append (l l' : List ApprovalRequest) (r : ApprovalRequest) :
    set_req (l ++ l') r = set_req l r ++ set_req l' r := by
  simp [set_req]

/-- Claim C7 (amended): for every dryrun submission the callable is never
invoked (ghost counter stays 0), the submitter receives `None`, and the request
is recorded in the queue's history — but marked `approved = False` at once, so
the pending list shown to the approval surface is unchanged (the request is not
visible there). -/
theorem dryrun_records_without_executing
    (q : ApprovalQueue) (d : String) (c : Callable)
    (hm : q.mode ≠ "auto") (hd : q.mode = "dryrun")
    (hfresh : ∀ r ∈ q.requests, r.id < q.next_id) :
    SubmitStep.retval (request_approval q d c) = none ∧
    (request_approval q d c).state.requests.length = q.requests.length + 1 ∧
    reqDecision (request_approval q d c).state q.next_id = some (some false) ∧
    reqExec (request_approval q d c).state q.next_id = some 0 ∧
    get_pending_requests (request_approval q d c).state = get_pending_requests q := by
  rw [request_approval_dryrun q d c hm hd]
  have hfind : find_request (enqueue q d c).2 q.next_id = some (enq_req q d c) :=
    findReq_enqueue q d c hfresh
  have hf' : find_request (enqueue q d c).2
      ({ enq_req q d c with approved := some false } : ApprovalRequest).id =
      some (enq_req q d c) := hfind
  have hfind2 : find_request
      (set_request (enqueue q d c).2 { enq_req q d c with approved := some false })
      q.next_id = some { enq_req q d c with approved := some false } :=
    find_request_set_self _ (enq_req q d c) _ hf'
  have hset : set_req (q.requests ++ [enq_req q d c])
      { enq_req q d c with approved := some false } =
      q.requests ++ [{ enq_req q d c with approved := some false }] := by
    rw [set_req_append]
    congr 1
    · refine set_req_eq_of_not_mem q.requests _ (fun x hx => ?_)
      have := hfresh x hx
      show x.id ≠ q.next_id
      omega
    · rw [set_req_cons, if_pos rfl]
      rfl
  refine ⟨rfl, ?_, ?_, ?_, ?_⟩
  · show (set_req (q.requests ++ [enq_req q d c])
      { enq_req q d c with approved := some false }).length = q.requests.length + 1
    rw [hset]
    simp
  · show reqDecision (set_request (enqueue q d c).2
        { enq_req q d c with approved := some false }) q.next_id = some (some false)
    simp only [reqDecision, hfind2, Option.map_some']
  · show reqExec (set_request (enqueue q d c).2
        { enq_req q d c with approved := some false }) q.next_id = some 0
    simp only [reqExec, hfind2, Option.map_some']
    rfl
  · show List.filter (fun r => r.approved.isNone)
        (set_req (q.requests ++ [enq_req q d c])
          { enq_req q d c with approved := some false }) =
      List.filter (fun r => r.approved.isNone) q.requests
    rw [hset, List.filter_append]
    simp

/-- Witness for the amended C7 theorem on a fresh dryrun queue. -/
theorem dryrun_records_without_executing_w :
    SubmitStep.retval (request_approval (ApprovalQueue.init "dryrun") "w" c_ok1) =
      none ∧
    (request_approval (ApprovalQueue.init "dryrun") "w" c_ok1).state.requests.length =
      (ApprovalQueue.init "dryrun").requests.length + 1 ∧
    reqDecision (request_approval (ApprovalQueue.init "dryrun") "w" c_ok1).state
      (ApprovalQueue.init "dryrun").next_id = some (some false) ∧
    reqExec (request_approval (ApprovalQueue.init "dryrun") "w" c_ok1).state
      (ApprovalQueue.init "dryrun").next_id = some 0 ∧
    get_pending_requests (request_approval (ApprovalQueue.init "dryrun") "w" c_ok1).state =
      get_pending_requests (ApprovalQueue.init "dryrun") :=
  dryrun_records_without_executing (ApprovalQueue.init "dryrun") "w" c_ok1
    (by decide) rfl (by intro r hr; simp [ApprovalQueue.init] at hr)

/-! ### Claim C2 -/

/-- The two-operation prefix of the C2 counterexample: one pending manual
submission, then a single `approve_batch 1`. -/
def ops_batch1 : List Op := [Op.submit "a" c_ok1, Op.batch 1]

/-- The C2 counterexample state: after `approve_batch 1` a further manual
submission arrives. -/
def q_batch_cex : ApprovalQueue := runOps "manual" (ops_batch1 ++ [Op.submit "b" c_ok2])

/-- Claim C2 counterexample: a single `approve_batch 1` on a manual queue with
one pending request both drains (approves) that request *and* leaves the
stored grant at 1 (the drain uses the local loop counter, not the stored
grant), so the next submission is auto-approved as well: the one grant
approves 2 > 1 requests in total, with no other approval operation involved. -/
theorem approve_batch_grant_exceeds_count_cex :
    (runOps "manual" ops_batch1).auto_approve_count = 1 ∧
    reqDecision q_batch_cex 1 = some (some true) ∧
    reqDecision q_batch_cex 2 = some (some true) ∧
    decidedCount q_batch_cex.requests = 2 := by
  decide

lemma decidedCount_cons (a : ApprovalRequest) (t : List ApprovalRequest) :
    decidedCount (a :: t) =
      (if a.approved.isSome = true then 1 else 0) + decidedCount t := by
  unfold decidedCount
  rw [List.filter_cons]
  by_cases h : a.approved.isSome = true
  · simp only [h, if_pos, List.length_cons]
    omega
  · simp only [h, if_neg]
    simp [h]

lemma idsOf_cons (a : ApprovalRequest) (t : List ApprovalRequest) :
    idsOf (a :: t) = a.id :: idsOf t := rfl

lemma decidedCount_set_req_le (l : List ApprovalRequest) (r' : ApprovalRequest)
    (hnodup : (idsOf l).Nodup) :
    decidedCount (set_req l r') ≤ decidedCount l + 1 := by
  induction l with
  | nil =>
    simp [set_req, decidedCount]
  | cons a t ih =>
    have hnd := List.nodup_cons.mp (by rw [← idsOf_cons]; exact hnodup)
    rw [set_req_cons, decidedCount_cons, decidedCount_cons]
    by_cases h : a.id = r'.id
    · rw [if_pos h]
      have ht : set_req t r' = t := by
        refine set_req_eq_of_not_mem t r' (fun x hx hc => ?_)
        exact hnd.1 (by rw [h, ← hc]; exact List.mem_map_of_mem _ hx)
      rw [ht]
      have b1 : (if r'.approved.isSome = true then 1 else 0) ≤ 1 := by
        split <;> omega
      omega
    · rw [if_neg h]
      have := ih hnd.2
      omega

lemma decidedCount_drainStep_le (reqs : List ApprovalRequest) (rid : Nat)
    (hnodup : (idsOf reqs).Nodup) :
    decidedCount (drainStep reqs rid) ≤ decidedCount reqs + 1 := by
  cases hf : findReq reqs rid with
  | none =>
    simp only [drainStep, hf]
    omega
  | some r =>
    by_cases hu : r.approved = none
    · simp only [drainStep, hf, if_pos hu]
      exact decidedCount_set_req_le _ _ hnodup
    · simp only [drainStep, hf, if_neg hu]
      omega

lemma decidedCount_drainLoop_le (fifo : List Nat) (c : Int)
    (reqs : List ApprovalRequest) (hnodup : (idsOf reqs).Nodup) :
    decidedCount (drainLoop fifo c reqs).2 ≤ decidedCount reqs + c.toNat := by
  induction fifo generalizing c reqs with
  | nil =>
    unfold drainLoop
    split
    · show decidedCount reqs ≤ decidedCount reqs + c.toNat
      omega
    · show decidedCount reqs ≤ decidedCount reqs + c.toNat
      omega
  | cons rid rest ih =>
    unfold drainLoop
    by_cases hc : c ≤ 0
    · rw [if_pos hc]
      show decidedCount reqs ≤ decidedCount reqs + c.toNat
      omega
    · rw [if_neg hc]
      show decidedCount (drainLoop rest (c - 1) (drainStep reqs rid)).2 ≤
        decidedCount reqs + c.toNat
      have h1 := decidedCount_drainStep_le reqs rid hnodup
      have h2 := ih (c - 1) (drainStep reqs rid)
        (by rw [idsOf_drainStep]; exact hnodup)
      have hc' : (c - 1).toNat + 1 = c.toNat := by omega
      omega

lemma submitRun_le_grant (l : List (String × Callable)) (q : ApprovalQueue)
    (hmode : q.mode = "manual") :
    (submitRun q l).1 ≤ q.auto_approve_count := by
  induction l generalizing q with
  | nil => simp [submitRun]
  | cons p rest ih =>
    obtain ⟨d, c⟩ := p
    have hm : q.mode ≠ "auto" := by rw [hmode]; decide
    have hd : q.mode ≠ "dryrun" := by rw [hmode]; decide
    by_cases hg : 0 < q.auto_approve_count
    · simp only [submitRun]
      rw [request_approval_manual_grant q d c hm hd hg]
      show (submitRun
          (set_request
            { (enqueue q d c).2 with auto_approve_count := q.auto_approve_count - 1 }
            (execute_request (enqueue q d c).1).1) rest).1 + 1 ≤
        q.auto_approve_count
      have h2 : (submitRun
          (set_request
            { (enqueue q d c).2 with auto_approve_count := q.auto_approve_count - 1 }
            (execute_request (enqueue q d c).1).1) rest).1 ≤
          q.auto_approve_count - 1 :=
        ih _ hmode
      omega
    · simp only [submitRun]
      rw [request_approval_manual_blocked q d c hm hd (by omega)]
      show (submitRun (enqueue q d c).2 rest).1 ≤ q.auto_approve_count
      exact ih _ hmode

/-- Claim C2 (amended): a single `approve_batch(N)` on a manual-mode queue
approves at most `N` currently pending requests in the immediate drain *and*
separately stores a standing grant of `N`, of which each subsequent manual
submission that bypasses blocking consumes one — so the grant's total is at
most `2N` (at most `N` retroactive plus at most `N` prospective), not at most
`N` as claimed. -/
theorem approve_batch_total_at_most_double
    (q : ApprovalQueue) (n : Int) (subs : List (String × Callable))
    (hmode : q.mode = "manual") (hnodup : (idsOf q.requests).Nodup) :
    decidedCount (approve_batch q n).requests ≤ decidedCount q.requests + n.toNat ∧
    (approve_batch q n).auto_approve_count = n.toNat ∧
    (submitRun (approve_batch q n) subs).1 ≤ n.toNat := by
  refine ⟨?_, rfl, ?_⟩
  · show decidedCount (drainLoop q.queue n q.requests).2 ≤
      decidedCount q.requests + n.toNat
    exact decidedCount_drainLoop_le _ _ _ hnodup
  · exact submitRun_le_grant subs (approve_batch q n) hmode

/-- Witness for the amended C2 theorem: one pending request, `approve_batch 1`,
then one further submission. -/
theorem approve_batch_total_at_most_double_w :
    decidedCount (approve_batch (runOps "manual" [Op.submit "a" c_ok1]) 1).requests ≤
      decidedCount (runOps "manual" [Op.submit "a" c_ok1]).requests + (1 : Int).toNat ∧
    (approve_batch (runOps "manual" [Op.submit "a" c_ok1]) 1).auto_approve_count =
      (1 : Int).toNat ∧
    (submitRun (approve_batch (runOps "manual" [Op.submit "a" c_ok1]) 1)
      [("b", c_ok2)]).1 ≤ (1 : Int).toNat :=
  approve_batch_total_at_most_double (runOps "manual" [Op.submit "a" c_ok1]) 1
    [("b", c_ok2)] (by decide) (by decide)

/-! ### Claim C3 -/

/-- The C3 counterexample state: three manual submissions, the first denied
out-of-band — the denied request is still at the front of the internal FIFO. -/
def q3 : ApprovalQueue :=
  runOps "manual"
    [Op.submit "a" c_ok1, Op.submit "b" c_ok2, Op.submit "c" c_ok3, Op.deny 1]

/-- Claim C3 counterexample: `q3` has 2 pending requests and `1 < 2`, yet
`approve_batch 1` approves *zero* of them: the drain pops the denied request
from the FIFO front, skips it, and still decrements the loop counter, so both
pending requests stay undecided — not "exactly count" as claimed. -/
theorem approve_batch_skips_decided_cex :
    (get_pending_requests q3).length = 2 ∧
    reqDecision (approve_batch q3 1) 2 = some none ∧
    reqDecision (approve_batch q3 1) 3 = some none ∧
    decidedCount (approve_batch q3 1).requests = decidedCount q3.requests := by
  decide

lemma drainLoop_nonpos (fifo : List Nat) (c : Int) (reqs : List ApprovalRequest)
    (hc : c ≤ 0) : drainLoop fifo c reqs = (fifo, reqs) := by
  unfold drainLoop
  rw [if_pos hc]

lemma drainLoop_cons_pos (rid : Nat) (rest : List Nat) (c : Int)
    (reqs : List ApprovalRequest) (hc : 0 < c) :
    drainLoop (rid :: rest) c reqs = drainLoop rest (c - 1) (drainStep reqs rid) := by
  conv_lhs => unfold drainLoop
  rw [if_neg (by omega)]

lemma drainStep_found (reqs : List ApprovalRequest) (rid : Nat) (r : ApprovalRequest)
    (hf : findReq reqs rid = some r) (hu : r.approved = none) :
    drainStep reqs rid = set_req reqs (execute_request r).1 := by
  simp only [drainStep, hf, if_pos hu]

lemma findReq_isSome_of_mem (l : List ApprovalRequest) (r : ApprovalRequest)
    (hr : r ∈ l) : ∃ x, findReq l r.id = some x := by
  cases hfx : findReq l r.id with
  | some x => exact ⟨x, rfl⟩
  | none => exact absurd rfl (findReq_eq_none_iff.mp hfx r hr)

lemma eq_of_mem_findReq_nodup (l : List ApprovalRequest) (i : Nat)
    (x r : ApprovalRequest) (hnodup : (idsOf l).Nodup)
    (hx : x ∈ l) (hxi : x.id = i) (hf : findReq l i = some r) : x = r := by
  have hr := findReq_mem hf
  have hri := findReq_eq_some_id hf
  exact List.inj_on_of_nodup_map hnodup hx hr (by rw [hxi, hri])

lemma findReq_map_preserving (l : List ApprovalRequest)
    (g : ApprovalRequest → ApprovalRequest)
    (hg : ∀ x, (g x).id = x.id) (i : Nat) :
    findReq (l.map g) i = (findReq l i).map g := by
  induction l with
  | nil => rfl
  | cons a t ih =>
    simp only [List.map_cons, findReq, hg a]
    by_cases h : a.id = i
    · simp [h]
    · simp [h, ih]

/-- Closed form of the `approve_batch` drain on a well-formed state whose FIFO
holds only undecided requests: the first `count` FIFO entries are executed and
every other history entry is untouched. -/
lemma drainLoop_spec (fifo : List Nat) (c : Int) (reqs : List ApprovalRequest)
    (hnodup : (idsOf reqs).Nodup) (hfnodup : fifo.Nodup)
    (hund : ∀ rid ∈ fifo, ∃ r, findReq reqs rid = some r ∧ r.approved = none)
    (hc : c.toNat ≤ fifo.length) :
    (drainLoop fifo c reqs).2 =
      reqs.map (fun r =>
        if r.id ∈ fifo.take c.toNat then (execute_request r).1 else r) := by
  induction fifo generalizing c reqs with
  | nil =>
    have hl : (drainLoop [] c reqs).2 = reqs := by
      unfold drainLoop
      split
      · rfl
      · rfl
    rw [hl]
    symm
    simp
  | cons rid rest ih =>
    by_cases hc0 : c ≤ 0
    · have h0 : c.toNat = 0 := by omega
      rw [drainLoop_nonpos _ _ _ hc0]
      show reqs = _
      simp only [h0, List.take_zero]
      symm
      simp
    · obtain ⟨r, hfr, hur⟩ := hund rid (List.mem_cons_self _ _)
      have hrid : r.id = rid := findReq_eq_some_id hfr
      have hridrest : rid ∉ rest := (List.nodup_cons.mp hfnodup).1
      rw [drainLoop_cons_pos _ _ _ _ (by omega), drainStep_found _ _ _ hfr hur]
      have hnodup2 : (idsOf (set_req reqs (execute_request r).1)).Nodup := by
        rw [idsOf_set_req]
        exact hnodup
      have hfnodup2 : rest.Nodup := (List.nodup_cons.mp hfnodup).2
      have hund2 : ∀ rid' ∈ rest, ∃ r',
          findReq (set_req reqs (execute_request r).1) rid' = some r' ∧
          r'.approved = none := by
        intro rid' hr'
        obtain ⟨r', hfr', hur'⟩ := hund rid' (List.mem_cons_of_mem _ hr')
        refine ⟨r', ?_, hur'⟩
        rw [findReq_set_req_other _ _ _ ?_]
        · exact hfr'
        · rw [execute_request_id, hrid]
          exact fun hco => hridrest (hco ▸ hr')
      have hc2 : (c - 1).toNat ≤ rest.length := by
        simp only [List.length_cons] at hc
        omega
      rw [ih (c - 1) (set_req reqs (execute_request r).1) hnodup2 hfnodup2 hund2 hc2]
      have htake : (rid :: rest).take c.toNat = rid :: rest.take (c - 1).toNat := by
        have hsucc : c.toNat = (c - 1).toNat + 1 := by omega
        rw [hsucc, List.take_succ_cons]
      simp only [htake, set_req, List.map_map]
      apply List.map_congr_left
      intro x hx
      simp only [Function.comp_apply]
      by_cases hxid : x.id = rid
      · have hxr : x = r :=
          eq_of_mem_findReq_nodup reqs rid x r hnodup hx hxid hfr
        subst hxr
        rw [if_pos (execute_request_id x).symm]
        rw [if_neg (show (execute_request x).1.id ∉ rest.take (c - 1).toNat from by
          rw [execute_request_id, hxid]
          exact fun hmem => hridrest (List.take_subset _ _ hmem))]
        rw [if_pos (show x.id ∈ rid :: rest.take (c - 1).toNat from by
          rw [hxid]
          exact List.mem_cons_self _ _)]
      · rw [if_neg (fun hco : x.id = (execute_request r).1.id =>
          hxid ((hco.trans (execute_request_id r)).trans hrid))]
        simp [List.mem_cons, hxid]

/-- Claim C3 (amended): on a well-formed state whose internal FIFO consists
exactly of the still-pending requests in submission order, `approve_batch count`
with `0 ≤ count <` the number of pending requests executes and decides exactly
the `count` oldest pending requests (approved, or denied if the callable
raised) and leaves every other history entry — in particular every other
pending request — completely unchanged.  (The counterexample shows the claim
fails when a decided request is still in the FIFO: popped entries consume
`count` even when they are skipped.) -/
theorem approve_batch_drains_oldest_first
    (q : ApprovalQueue) (c : Int)
    (hnodup : (idsOf q.requests).Nodup)
    (hfifo : q.queue = (get_pending_requests q).map (fun r => r.id))
    (_hc0 : 0 ≤ c) (hlt : c.toNat < (get_pending_requests q).length) :
    (approve_batch q c).requests =
      q.requests.map (fun r =>
        if r.id ∈ q.queue.take c.toNat then (execute_request r).1 else r) ∧
    (q.queue.take c.toNat).length = c.toNat ∧
    (∀ rid ∈ q.queue.take c.toNat,
      reqDecision (approve_batch q c) rid ≠ some none ∧
      reqDecision (approve_batch q c) rid ≠ none) ∧
    (∀ r ∈ q.requests, r.id ∉ q.queue.take c.toNat →
      find_request (approve_batch q c) r.id = find_request q r.id) := by
  have hsub : ((get_pending_requests q).map (fun r => r.id)).Sublist
      (idsOf q.requests) := (List.filter_sublist q.requests).map _
  have hfnodup : q.queue.Nodup := by
    rw [hfifo]
    exact hnodup.sublist hsub
  have hund : ∀ rid ∈ q.queue, ∃ r,
      findReq q.requests rid = some r ∧ r.approved = none := by
    intro rid hr
    rw [hfifo] at hr
    rcases List.mem_map.mp hr with ⟨p, hp, hpid⟩
    rcases List.mem_filter.mp hp with ⟨hpmem, hpnone⟩
    obtain ⟨x, hfx⟩ := findReq_isSome_of_mem q.requests p hpmem
    have hpx : p = x :=
      eq_of_mem_findReq_nodup q.requests p.id p x hnodup hpmem rfl hfx
    refine ⟨x, ?_, ?_⟩
    · rw [← hpid]
      exact hfx
    · rw [← hpx]
      exact Option.isNone_iff_eq_none.mp hpnone
  have hc : c.toNat ≤ q.queue.length := by
    rw [hfifo, List.length_map]
    omega
  have hA : (drainLoop q.queue c q.requests).2 =
      q.requests.map (fun r =>
        if r.id ∈ q.queue.take c.toNat then (execute_request r).1 else r) :=
    drainLoop_spec q.queue c q.requests hnodup hfnodup hund hc
  have hg : ∀ x : ApprovalRequest,
      ((fun r => if r.id ∈ q.queue.take c.toNat then (execute_request r).1 else r)
        x).id = x.id := by
    intro x
    by_cases hmem : x.id ∈ q.queue.take c.toNat
    · simp [hmem, execute_request_id]
    · simp [hmem]
  have hfindmap : ∀ i, findReq (drainLoop q.queue c q.requests).2 i =
      (findReq q.requests i).map
        (fun r => if r.id ∈ q.queue.take c.toNat then (execute_request r).1 else r) := by
    intro i
    rw [hA]
    exact findReq_map_preserving _ _ hg i
  refine ⟨hA, ?_, ?_, ?_⟩
  · rw [List.length_take, hfifo, List.length_map]
    omega
  · intro rid hrid
    have hrq : rid ∈ q.queue := List.take_subset _ _ hrid
    obtain ⟨x, hfx, hux⟩ := hund rid hrq
    have hxid : x.id = rid := findReq_eq_some_id hfx
    have : reqDecision (approve_batch q c) rid =
        some ((execute_request x).1.approved) := by
      show (findReq (drainLoop q.queue c q.requests).2 rid).map
        (fun r => r.approved) = _
      rw [hfindmap rid, hfx]
      simp only [Option.map_some']
      rw [if_pos (by rw [hxid]; exact hrid)]
    rw [this]
    constructor
    · intro hco
      injection hco with hco2
      exact execute_request_approved_ne x hco2
    · intro hco
      cases hco
  · intro r hr hnot
    show findReq (drainLoop q.queue c q.requests).2 r.id = findReq q.requests r.id
    rw [hfindmap r.id]
    cases hfx : findReq q.requests r.id with
    | none => rfl
    | some x =>
      have hxid : x.id = r.id := findReq_eq_some_id hfx
      simp only [Option.map_some']
      rw [if_neg (by rw [hxid]; exact hnot)]

/-- The C3 witness state: two pending manual submissions in FIFO order. -/
def q_c3w : ApprovalQueue :=
  runOps "manual" [Op.submit "a" c_ok1, Op.submit "b" c_ok2]

/-- Witness for the amended C3 theorem: with 2 pending requests,
`approve_batch 1` executes exactly the oldest and leaves the other untouched. -/
theorem approve_batch_drains_oldest_first_w :
    (approve_batch q_c3w 1).requests =
      q_c3w.requests.map (fun r =>
        if r.id ∈ q_c3w.queue.take (1 : Int).toNat then (execute_request r).1 else r) ∧
    (q_c3w.queue.take (1 : Int).toNat).length = (1 : Int).toNat ∧
    (∀ rid ∈ q_c3w.queue.take (1 : Int).toNat,
      reqDecision (approve_batch q_c3w 1) rid ≠ some none ∧
      reqDecision (approve_batch q_c3w 1) rid ≠ none) ∧
    (∀ r ∈ q_c3w.requests, r.id ∉ q_c3w.queue.take (1 : Int).toNat →
      find_request (approve_batch q_c3w 1) r.id = find_request q_c3w r.id) :=
  approve_batch_drains_oldest_first q_c3w 1 (by decide) (by decide) (by decide)
    (by decide)
